import Mathlib

/-!
Verification of the alignment / phylogenetics subsystem of the
human_genome_viewer repository (src/src/alignment.py).

The wrapper functions `perform_pairwise_alignment`, `build_phylogenetic_tree`
and `perform_multiple_sequence_alignment` are translated directly from
`src/src/alignment.py`.  The dynamic-programming alignment core and the UPGMA
clustering engine are provided by the third-party Biopython library and are
not part of the repository's own sources; following the specification's
explicit reconstruction (spec sections 4.1 and 4.3) they are modelled here
from the spec.  Scores and distances are modelled as rationals.
-/

namespace HGV

/-! ## Scoring model (spec section 3, ScoringScheme; alignment.py lines 28-33) -/

structure AlignConfig where
  mode : String
  matchScore : ℚ
  mismatchScore : ℚ
  openGapScore : ℚ
  extendGapScore : ℚ
deriving DecidableEq, Repr

/-- Configuration of the `PairwiseAligner` built by `perform_pairwise_alignment`
(alignment.py lines 28-33): an unknown mode falls back to global, and the
gap-extend score is hard-wired to half of the supplied `gap_score`. -/
def pairwiseAlignerConfig (matchScore mismatchScore gapScore : ℚ) (mode : String) :
    AlignConfig :=
  { mode := if mode = "global" ∨ mode = "local" then mode else "global"
    matchScore := matchScore
    mismatchScore := mismatchScore
    openGapScore := gapScore
    extendGapScore := gapScore / 2 }

/-- The configuration of a freshly constructed `PairwiseAligner` as used in
`build_phylogenetic_tree` (lines 61-62) and in the progressive fallback of
`perform_multiple_sequence_alignment` (lines 209-210): only the mode is set to
global; the library defaults are match score 1, mismatch score 0 and all gap
scores 0. -/
def defaultAligner : AlignConfig :=
  { mode := "global"
    matchScore := 1
    mismatchScore := 0
    openGapScore := 0
    extendGapScore := 0 }

/-! ## Pairwise aligner core.

Modelled from the spec: the dynamic-programming engine behind
`PairwiseAligner.score` / `PairwiseAligner.align` is not part of this
repository (it lives in the Biopython dependency); spec section 4.1
reconstructs it as the three-matrix affine-gap recurrence implemented here.
`⊥` (`WithBot ℚ`) marks an unreachable dynamic-programming state. -/

/-- Substitution score: match score when the symbols agree, mismatch score
otherwise (spec 4.1, `sub(x,y)`). -/
def subScore (p : AlignConfig) (a b : Char) : ℚ :=
  if a = b then p.matchScore else p.mismatchScore

/-- One cell of the three dynamic-programming matrices M, Gx, Gy. -/
structure Cell where
  M : WithBot ℚ
  X : WithBot ℚ
  Y : WithBot ℚ
deriving DecidableEq, Repr

def max3 (a b c : WithBot ℚ) : WithBot ℚ := max a (max b c)

/-- Row i = 0 of the global-mode dynamic program: only gaps in the second
sequence are possible, with cumulative affine gap costs (spec 4.1, global
boundary). -/
def row0 (p : AlignConfig) : ℕ → Cell
  | 0 => ⟨(0 : ℚ), ⊥, ⊥⟩
  | j + 1 =>
      let prev := row0 p j
      ⟨⊥, ⊥, max (prev.M + (p.openGapScore : WithBot ℚ))
                 (prev.Y + (p.extendGapScore : WithBot ℚ))⟩

/-- Row i+1 of the global-mode dynamic program, given row i (`prev`); `a` is
symbol i of the first sequence. -/
def rowStep (p : AlignConfig) (a : Char) (y : List Char) (prev : ℕ → Cell) : ℕ → Cell
  | 0 =>
      ⟨⊥, max ((prev 0).M + (p.openGapScore : WithBot ℚ))
              ((prev 0).X + (p.extendGapScore : WithBot ℚ)), ⊥⟩
  | j + 1 =>
      let pd := prev j
      let pu := prev (j + 1)
      let pl := rowStep p a y prev j
      ⟨max3 pd.M pd.X pd.Y + (subScore p a (y.getD j ' ') : WithBot ℚ),
       max (pu.M + (p.openGapScore : WithBot ℚ)) (pu.X + (p.extendGapScore : WithBot ℚ)),
       max (pl.M + (p.openGapScore : WithBot ℚ)) (pl.Y + (p.extendGapScore : WithBot ℚ))⟩

/-- The full table of global-mode cells for sequences `x`, `y`. -/
def cells (p : AlignConfig) (x y : List Char) : ℕ → ℕ → Cell
  | 0 => row0 p
  | i + 1 => rowStep p (x.getD i ' ') y (cells p x y i)

/-- Optimal global alignment score: best of the three matrices at the
bottom-right corner (spec 4.1, global answer). -/
def globalScore (p : AlignConfig) (x y : List Char) : WithBot ℚ :=
  let c := cells p x y x.length y.length
  max3 c.M c.X c.Y

/-- Global score as a rational (the corner cell is always reachable). -/
def globalScoreQ (p : AlignConfig) (x y : List Char) : ℚ :=
  (globalScore p x y).unbot' 0

/-- Local-mode boundary: every boundary cell may start a fresh region with
score 0 (spec 4.1, local boundary). -/
def lrow0 : ℕ → Cell := fun _ => ⟨(0 : ℚ), ⊥, ⊥⟩

/-- Local-mode row step: the match state may restart from 0 in any cell
(standard local variant, spec 4.1). -/
def lrowStep (p : AlignConfig) (a : Char) (y : List Char) (prev : ℕ → Cell) : ℕ → Cell
  | 0 => ⟨(0 : ℚ), ⊥, ⊥⟩
  | j + 1 =>
      let pd := prev j
      let pu := prev (j + 1)
      let pl := lrowStep p a y prev j
      ⟨max (max3 pd.M pd.X pd.Y + (subScore p a (y.getD j ' ') : WithBot ℚ)) ((0 : ℚ) : WithBot ℚ),
       max (pu.M + (p.openGapScore : WithBot ℚ)) (pu.X + (p.extendGapScore : WithBot ℚ)),
       max (pl.M + (p.openGapScore : WithBot ℚ)) (pl.Y + (p.extendGapScore : WithBot ℚ))⟩

/-- The full table of local-mode cells. -/
def lcells (p : AlignConfig) (x y : List Char) : ℕ → ℕ → Cell
  | 0 => lrow0
  | i + 1 => lrowStep p (x.getD i ' ') y (lcells p x y i)

def cellBest (c : Cell) : WithBot ℚ := max3 c.M c.X c.Y

/-- Optimal local alignment score: the maximum over the whole matrix, and an
empty optimal region is reported as score 0 (spec 4.1, local answer). -/
def localScoreQ (p : AlignConfig) (x y : List Char) : ℚ :=
  let all := (List.range (x.length + 1)).flatMap fun i =>
    (List.range (y.length + 1)).map fun j => cellBest (lcells p x y i j)
  max 0 ((all.foldr max ⊥).unbot' 0)

/-! ## perform_pairwise_alignment (alignment.py lines 24-42).

The returned Python dict carries `score`, `alignment_str`, `count` and
`mode`; the textual rendering and the count of co-optimal alignments are
presentation data no claim depends on, so the embedded result carries the
score and the mode. -/

structure PairwiseResult where
  score : ℚ
  mode : String
deriving DecidableEq, Repr

/-- Embedding of `perform_pairwise_alignment` (alignment.py lines 24-42).
Python defaults: match 1, mismatch -1, gap -1/2, mode global. -/
def perform_pairwise_alignment (seq1 seq2 : List Char)
    (matchScore mismatchScore gapScore : ℚ) (mode : String) : PairwiseResult :=
  let cfg := pairwiseAlignerConfig matchScore mismatchScore gapScore mode
  { score := if cfg.mode = "local" then localScoreQ cfg seq1 seq2
             else globalScoreQ cfg seq1 seq2
    mode := cfg.mode }

/-! ## Distance matrix builder (alignment.py lines 54-90) -/

/-- Entry lookup in a row-list matrix (out-of-range entries read 0). -/
def dAt (d : List (List ℚ)) (i j : ℕ) : ℚ := (d.getD i []).getD j 0

/-- Normalized distance of one ordered pair, translated from alignment.py
lines 72-86: score-only global alignment with the default aligner, divided by
`max_len * aligner.match_score`, guarded for `max_score > 0`, then clamped
into [0,1]. -/
def pairDistance (s t : List Char) : ℚ :=
  let score := globalScoreQ defaultAligner s t
  let maxLen : ℚ := ((max s.length t.length : ℕ) : ℚ)
  let maxScore := maxLen * defaultAligner.matchScore
  let distance := if 0 < maxScore then 1 - score / maxScore else 1
  max 0 (min 1 distance)

/-- The lower-triangular matrix built by the loop at alignment.py lines
66-87: row i has entries for j = 0..i, with 0 on the diagonal. -/
def triMatrix (seqs : List (List Char)) : List (List ℚ) :=
  (List.range seqs.length).map fun i =>
    (List.range (i + 1)).map fun j =>
      if i = j then 0 else pairDistance (seqs.getD i []) (seqs.getD j [])

/-- Logical entry (i,j) of the `DistanceMatrix` object built from the
lower-triangular rows (line 90): the upper triangle mirrors the lower one. -/
def mirrorEntry (tri : List (List ℚ)) (i j : ℕ) : ℚ :=
  if j ≤ i then dAt tri i j else dAt tri j i

/-- The full square distance matrix represented by the `DistanceMatrix`
object handed to the UPGMA constructor. -/
def fullMatrix (seqs : List (List Char)) : List (List ℚ) :=
  (List.range seqs.length).map fun i =>
    (List.range seqs.length).map fun j => mirrorEntry (triMatrix seqs) i j

/-! ## UPGMA clustering engine.

Modelled from the spec: the tree constructor used at alignment.py lines 93-94
(`DistanceTreeConstructor().upgma`) belongs to the Biopython dependency, not
to this repository; spec section 4.3 reconstructs it as the state machine
implemented here: a pool of clusters, repeated merging of the globally
closest pair at height distance/2, size-weighted averaging of distances, and
rejection of negative or asymmetric input with `InvalidDistanceError`. -/

inductive Cluster where
  | leaf (name : String)
  | node (height : ℚ) (left right : Cluster)
deriving DecidableEq, Repr

def Cluster.height : Cluster → ℚ
  | .leaf _ => 0
  | .node h _ _ => h

def Cluster.leafCount : Cluster → ℕ
  | .leaf _ => 1
  | .node _ l r => l.leafCount + r.leafCount

def Cluster.internalCount : Cluster → ℕ
  | .leaf _ => 0
  | .node _ l r => l.internalCount + r.internalCount + 1

/-- Ultrametric monotonicity: every internal node is at least as high as each
of its children. -/
def Cluster.isUltra : Cluster → Bool
  | .leaf _ => true
  | .node h l r =>
      decide (l.height ≤ h) && decide (r.height ≤ h) && l.isUltra && r.isUltra

inductive ClusterError where
  | emptyInput
  | invalidDistance
deriving DecidableEq, Repr

/-- All ordered pairs (i,j) with i < j < n, in row-major scan order. -/
def offDiagPairs (n : ℕ) : List (ℕ × ℕ) :=
  (List.range n).flatMap fun i =>
    ((List.range n).filter fun j => i < j).map fun j => (i, j)

/-- Scan for the pair with minimal matrix entry (strict improvement, so the
first minimum in scan order wins: a fixed deterministic tie-break, spec
4.3). -/
def minPairAux (d : List (List ℚ)) : List (ℕ × ℕ) → ℕ × ℕ → ℕ × ℕ
  | [], best => best
  | p :: rest, best =>
      minPairAux d rest (if dAt d p.1 p.2 < dAt d best.1 best.2 then p else best)

def findMinPair (d : List (List ℚ)) (n : ℕ) : ℕ × ℕ :=
  match offDiagPairs n with
  | [] => (0, 1)
  | p :: rest => minPairAux d rest p

/-- Indices of the clusters untouched by a merge of clusters i and j. -/
def othersList (n i j : ℕ) : List ℕ :=
  (List.range n).filter fun k => k ≠ i && k ≠ j

/-- Size-weighted mean distance from the merge of clusters i and j to
cluster k (spec 4.3): `(s_i * d(i,k) + s_j * d(j,k)) / (s_i + s_j)` with
s_i, s_j the leaf counts. -/
def wavg (pool : List Cluster) (d : List (List ℚ)) (i j k : ℕ) : ℚ :=
  let si : ℚ := (pool.getD i (Cluster.leaf "")).leafCount
  let sj : ℚ := (pool.getD j (Cluster.leaf "")).leafCount
  (si * dAt d i k + sj * dAt d j k) / (si + sj)

/-- One UPGMA merge (spec 4.3): clusters i and j become a node of height
`distance(i,j)/2`; its distance to every remaining cluster x is the
size-weighted mean computed by `wavg`. -/
def mergeStep (pool : List Cluster) (d : List (List ℚ)) (i j : ℕ) :
    List Cluster × List (List ℚ) :=
  let n := pool.length
  let a := pool.getD i (Cluster.leaf "")
  let b := pool.getD j (Cluster.leaf "")
  let c := Cluster.node (dAt d i j / 2) a b
  let others := othersList n i j
  let newPool := c :: others.map fun k => pool.getD k (Cluster.leaf "")
  let newD := (0 :: others.map (wavg pool d i j)) ::
    others.map fun k => wavg pool d i j k :: others.map fun l => dAt d k l
  (newPool, newD)

/-- The merge loop: repeatedly merge the closest pair until one cluster
remains.  The fuel argument only bounds the iteration count; `upgma` supplies
fuel `n`, which exceeds the n-1 merges actually performed. -/
def mergeLoop : ℕ → List Cluster → List (List ℚ) → Cluster
  | 0, pool, _ => pool.headD (Cluster.leaf "")
  | fuel + 1, pool, d =>
      if pool.length ≤ 1 then pool.headD (Cluster.leaf "")
      else
        let ij := findMinPair d pool.length
        let pd := mergeStep pool d ij.1 ij.2
        mergeLoop fuel pd.1 pd.2

def validShape (n : ℕ) (d : List (List ℚ)) : Bool :=
  d.length = n && d.all fun row => row.length = n

def validEntries (n : ℕ) (d : List (List ℚ)) : Bool :=
  (List.range n).all fun k => (List.range n).all fun l =>
    decide (0 ≤ dAt d k l) && decide (dAt d k l = dAt d l k)

/-- Modelled from the spec: the UPGMA engine (spec 4.3).  A matrix with
negative or asymmetric entries is rejected with `InvalidDistanceError`
before clustering starts; otherwise the merge loop runs to the single root
cluster. -/
def upgma (names : List String) (d : List (List ℚ)) : Except ClusterError Cluster :=
  if names.isEmpty then .error .emptyInput
  else if validShape names.length d && validEntries names.length d then
    .ok (mergeLoop names.length (names.map Cluster.leaf) d)
  else .error .invalidDistance

/-! ## build_phylogenetic_tree (alignment.py lines 44-163).

The function computes the lower-triangular pairwise distance matrix, wraps it
in a `DistanceMatrix`, runs UPGMA, and renders the tree with Plotly.  The
Plotly figure and the rounded display copy of the matrix (lines 96-161) are
presentation only; the embedding returns the tree and the computed triangular
matrix.  The source performs no input-size validation and defines no error
type of its own: the only failures are those of the clustering engine. -/

def build_phylogenetic_tree (fasta : List (String × List Char)) :
    Except ClusterError (Cluster × List (List ℚ)) :=
  let names := fasta.map fun nv => nv.1
  let seqs := fasta.map fun nv => nv.2
  match upgma names (fullMatrix seqs) with
  | .ok tree => .ok (tree, triMatrix seqs)
  | .error e => .error e

/-! ## perform_multiple_sequence_alignment (alignment.py lines 165-224). -/

/-- Behaviour of the external `mafft` process for one invocation. -/
inductive ToolBehavior where
  | succeeds (stdout : List String)
  | exitsNonzero
  | missing
  | hangs
deriving DecidableEq, Repr

inductive RunError where
  | calledProcess
  | fileNotFound
  | timeoutExpired
deriving DecidableEq, Repr

/-- The keyword arguments of a `subprocess.run` call.  `timeout = none`
means the call may block forever. -/
structure SubprocessCall where
  args : List String
  captureOutput : Bool
  text : Bool
  check : Bool
  timeout : Option ℚ
deriving DecidableEq, Repr

/-- The exact `subprocess.run` invocation at alignment.py lines 182-187: no
`timeout` keyword is passed. -/
def mafftCall (path : String) : SubprocessCall :=
  { args := ["mafft", "--quiet", "--auto", path]
    captureOutput := true
    text := true
    check := true
    timeout := none }

/-- Semantics of `subprocess.run`: with `check = true` a nonzero exit raises
`CalledProcessError`, a missing executable raises `FileNotFoundError`, and a
hanging process returns only if a `timeout` was supplied (raising
`TimeoutExpired` then); `none` models a call that never returns. -/
def runProcess (call : SubprocessCall) (tool : ToolBehavior) :
    Option (Except RunError (List String)) :=
  match tool with
  | .succeeds out => some (.ok out)
  | .exitsNonzero => some (.error .calledProcess)
  | .missing => some (.error .fileNotFound)
  | .hangs =>
      match call.timeout with
      | none => none
      | some _ => some (.error .timeoutExpired)

/-- Structured content of the progressive-fallback report built at
alignment.py lines 200-224: the warning banner, the reference sequence, and
one pairwise comparison (name and optimal global score) per non-reference
sequence. -/
structure FallbackReport where
  heuristicWarning : Bool
  referenceName : String
  referenceLength : ℕ
  comparisons : List (String × ℚ)
deriving DecidableEq, Repr

/-- The fallback loop (lines 205-224): every sequence after the first is
globally aligned against the first with a default aligner, reporting
`alignments[0].score`. -/
def progressiveFallback (fasta : List (String × List Char)) : FallbackReport :=
  let sequences := fasta.map fun nv => nv.2
  let names := fasta.map fun nv => nv.1
  let base := sequences.getD 0 []
  { heuristicWarning := true
    referenceName := names.getD 0 ""
    referenceLength := base.length
    comparisons := (List.range (sequences.length - 1)).map fun t =>
      (names.getD (t + 1) "", globalScoreQ defaultAligner base (sequences.getD (t + 1) [])) }

inductive MSAResult where
  | needAtLeastTwo
  | mafft (lines : List String) (truncated : Bool)
  | fallback (r : FallbackReport)
deriving DecidableEq, Repr

/-- Number of external-tool invocations made by one call of
`perform_multiple_sequence_alignment`: the single `subprocess.run` at lines
182-187 sits in a straight-line `try` block, so the tool is started exactly
once whenever at least two sequences are supplied, and never restarted. -/
def toolInvocations (fasta : List (String × List Char)) : ℕ :=
  if fasta.length < 2 then 0 else 1

/-- Embedding of `perform_multiple_sequence_alignment` (lines 165-224),
parametrised by the behaviour of the external tool.  The outer `Option` is
`none` when the call never returns (a hanging tool and no timeout); the
`Except` layer carries a Python exception that propagates uncaught (the
`except` clause at line 200 catches only `CalledProcessError` and
`FileNotFoundError`). -/
def perform_multiple_sequence_alignment (tool : ToolBehavior)
    (fasta : List (String × List Char)) : Option (Except RunError MSAResult) :=
  if fasta.length < 2 then some (.ok .needAtLeastTwo)
  else
    match runProcess (mafftCall "tmp.fasta") tool with
    | none => none
    | some (.ok out) =>
        some (.ok (.mafft (out.take 100) (decide (100 < out.length))))
    | some (.error .calledProcess) => some (.ok (.fallback (progressiveFallback fasta)))
    | some (.error .fileNotFound) => some (.ok (.fallback (progressiveFallback fasta)))
    | some (.error .timeoutExpired) => some (.error .timeoutExpired)

/-! ## Predicates used by the proofs -/

def CellLE (c : Cell) (q : ℚ) : Prop :=
  c.M ≤ (q : WithBot ℚ) ∧ c.X ≤ (q : WithBot ℚ) ∧ c.Y ≤ (q : WithBot ℚ)

def poolLeaves (pool : List Cluster) : ℕ := (pool.map Cluster.leafCount).sum

def poolInternal (pool : List Cluster) : ℕ := (pool.map Cluster.internalCount).sum

/-- Invariant carried through the merge loop: the working matrix is
symmetric and non-negative on the live indices, every live cluster sits at
height at most half its distance to any other cluster, and every live
cluster is already ultrametric. -/
structure UPGMAInv (pool : List Cluster) (dm : List (List ℚ)) : Prop where
  symm : ∀ k l, k < pool.length → l < pool.length → dAt dm k l = dAt dm l k
  nonneg : ∀ k l, k < pool.length → l < pool.length → 0 ≤ dAt dm k l
  sep : ∀ k l, k < pool.length → l < pool.length → k ≠ l →
    2 * (pool.getD k (Cluster.leaf "")).height ≤ dAt dm k l
  ultra : ∀ c ∈ pool, c.isUltra = true

/-! ## General list-indexing helpers -/

lemma getD_map_of_lt {α β : Type} (f : α → β) (l : List α) {t : ℕ}
    (ht : t < l.length) (d : β) (d' : α) :
    (l.map f).getD t d = f (l.getD t d') := by
  rw [List.getD_eq_getElem?_getD, List.getD_eq_getElem?_getD,
    List.getElem?_map, List.getElem?_eq_getElem ht]
  rfl

lemma getD_range_of_lt {n t : ℕ} (ht : t < n) (d : ℕ) :
    (List.range n).getD t d = t := by
  rw [List.getD_eq_getElem?_getD,
    List.getElem?_eq_getElem (by simpa using ht), List.getElem_range]
  rfl

lemma getD_map_range {α : Type} (f : ℕ → α) {n t : ℕ} (ht : t < n) (d : α) :
    ((List.range n).map f).getD t d = f t := by
  rw [getD_map_of_lt f _ (by simpa using ht) d 0, getD_range_of_lt ht]

/-! ## C1: input-size validation of build_phylogenetic_tree -/

/-- C1 (amended): `build_phylogenetic_tree` performs no input-size
validation and raises no `InsufficientInputError` (no such error exists in
the code); for a single-entry input it succeeds, returning the 1x1 zero
matrix and a single-leaf tree. -/
theorem c1_single_entry_not_rejected (nm : String) (s : List Char) :
    build_phylogenetic_tree [(nm, s)] = .ok (.leaf nm, [[0]]) := rfl

/-- C1 counterexample: on a concrete single-entry input the function does
not fail at all (so in particular it does not fail with
`InsufficientInputError`): it returns a matrix and a tree. -/
theorem c1_counterexample :
    build_phylogenetic_tree [("A", "ACGT".toList)] =
      .ok (.leaf "A", [[0]]) := rfl

/-! ## C10: the affine gap scheme of perform_pairwise_alignment -/

/-- C10: the aligner configured by `perform_pairwise_alignment` always uses
gap-open penalty equal to the supplied `gap_score` and gap-extend penalty
equal to exactly half of it; the function's signature offers no independent
gap-extend parameter. -/
theorem c10_gap_extend_is_half_open (m mm g : ℚ) (md : String) :
    (pairwiseAlignerConfig m mm g md).openGapScore = g ∧
    (pairwiseAlignerConfig m mm g md).extendGapScore =
      (pairwiseAlignerConfig m mm g md).openGapScore / 2 ∧
    (perform_pairwise_alignment [] [] m mm g md).mode =
      (pairwiseAlignerConfig m mm g md).mode :=
  ⟨rfl, rfl, rfl⟩

/-! ## C3: timeout and retry behaviour of the MSA orchestrator -/

/-- C3 (amended): the external-tool invocation of
`perform_multiple_sequence_alignment` is made without any timeout bound and
is never retried: the tool is started exactly once per call; absence of the
tool and a nonzero exit trigger the heuristic fallback, while a hanging tool
blocks the caller indefinitely. -/
theorem c3_no_timeout_single_invocation (tool : ToolBehavior)
    (fasta : List (String × List Char)) (h : 2 ≤ fasta.length) :
    (mafftCall "tmp.fasta").timeout = none ∧
    toolInvocations fasta = 1 ∧
    (tool = .hangs → perform_multiple_sequence_alignment tool fasta = none) ∧
    (tool = .missing → perform_multiple_sequence_alignment tool fasta =
      some (.ok (.fallback (progressiveFallback fasta)))) ∧
    (tool = .exitsNonzero → perform_multiple_sequence_alignment tool fasta =
      some (.ok (.fallback (progressiveFallback fasta)))) := by
  have hlt : ¬ fasta.length < 2 := Nat.not_lt.mpr h
  refine ⟨rfl, ?_, ?_, ?_, ?_⟩
  · simp [toolInvocations, hlt]
  · rintro rfl
    simp [perform_multiple_sequence_alignment, hlt, runProcess, mafftCall]
  · rintro rfl
    simp [perform_multiple_sequence_alignment, hlt, runProcess, mafftCall]
  · rintro rfl
    simp [perform_multiple_sequence_alignment, hlt, runProcess, mafftCall]

/-- C3 witness: the amended statement instantiated at a hanging tool and a
concrete two-sequence input. -/
theorem c3_witness :
    (mafftCall "tmp.fasta").timeout = none ∧
    toolInvocations [("A", ['A']), ("B", ['C'])] = 1 ∧
    (ToolBehavior.hangs = .hangs →
      perform_multiple_sequence_alignment .hangs [("A", ['A']), ("B", ['C'])] = none) ∧
    (ToolBehavior.hangs = .missing →
      perform_multiple_sequence_alignment .hangs [("A", ['A']), ("B", ['C'])] =
        some (.ok (.fallback (progressiveFallback [("A", ['A']), ("B", ['C'])])))) ∧
    (ToolBehavior.hangs = .exitsNonzero →
      perform_multiple_sequence_alignment .hangs [("A", ['A']), ("B", ['C'])] =
        some (.ok (.fallback (progressiveFallback [("A", ['A']), ("B", ['C'])])))) :=
  c3_no_timeout_single_invocation .hangs [("A", ['A']), ("B", ['C'])] (by decide)

/-- C3 counterexample: with two sequences and a hanging external tool the
call never returns (there is no bounded timeout, no retry and no fallback on
a hang), refuting the claim at a concrete input. -/
theorem c3_counterexample :
    perform_multiple_sequence_alignment .hangs [("A", ['A']), ("B", ['C'])] = none ∧
    (mafftCall "tmp.fasta").timeout = none ∧
    toolInvocations [("A", ['A']), ("B", ['C'])] = 1 :=
  ⟨rfl, rfl, rfl⟩

/-! ## C6: structure of the heuristic fallback result -/

/-- C6: when the external aligner is unavailable, the orchestrator's result
is the fallback report: it carries the explicit heuristic warning, names the
first sequence as reference, and contains exactly one pairwise global
comparison (name and score) for each of the k-1 non-reference sequences,
each aligned against the first sequence. -/
theorem c6_fallback_structure (fasta : List (String × List Char))
    (h : 2 ≤ fasta.length) :
    perform_multiple_sequence_alignment .missing fasta =
      some (.ok (.fallback (progressiveFallback fasta))) ∧
    (progressiveFallback fasta).heuristicWarning = true ∧
    (progressiveFallback fasta).referenceName = (fasta.map fun nv => nv.1).getD 0 "" ∧
    (progressiveFallback fasta).comparisons.length = fasta.length - 1 ∧
    (∀ t, t < fasta.length - 1 →
      (progressiveFallback fasta).comparisons.getD t ("", 0) =
        ((fasta.map fun nv => nv.1).getD (t + 1) "",
          globalScoreQ defaultAligner ((fasta.map fun nv => nv.2).getD 0 [])
            ((fasta.map fun nv => nv.2).getD (t + 1) []))) := by
  have hlt : ¬ fasta.length < 2 := Nat.not_lt.mpr h
  refine ⟨?_, rfl, rfl, ?_, ?_⟩
  · simp [perform_multiple_sequence_alignment, hlt, runProcess, mafftCall]
  · simp [progressiveFallback]
  · intro t ht
    have ht' : t < (fasta.map fun nv => nv.2).length - 1 := by
      simpa using ht
    unfold progressiveFallback
    rw [getD_map_range _ ht' ("", 0)]

/-- C6 witness: the fallback structure at a concrete three-sequence input
with the tool absent. -/
theorem c6_witness :
    perform_multiple_sequence_alignment .missing
        [("A", "ACGT".toList), ("B", "ACGA".toList), ("C", "TT".toList)] =
      some (.ok (.fallback (progressiveFallback
        [("A", "ACGT".toList), ("B", "ACGA".toList), ("C", "TT".toList)]))) ∧
    (progressiveFallback
        [("A", "ACGT".toList), ("B", "ACGA".toList), ("C", "TT".toList)]).heuristicWarning
      = true ∧
    (progressiveFallback
        [("A", "ACGT".toList), ("B", "ACGA".toList), ("C", "TT".toList)]).referenceName
      = ([("A", "ACGT".toList), ("B", "ACGA".toList), ("C", "TT".toList)].map
          fun nv => nv.1).getD 0 "" ∧
    (progressiveFallback
        [("A", "ACGT".toList), ("B", "ACGA".toList), ("C", "TT".toList)]).comparisons.length
      = [("A", "ACGT".toList), ("B", "ACGA".toList), ("C", "TT".toList)].length - 1 ∧
    (∀ t, t < [("A", "ACGT".toList), ("B", "ACGA".toList), ("C", "TT".toList)].length - 1 →
      (progressiveFallback
          [("A", "ACGT".toList), ("B", "ACGA".toList), ("C", "TT".toList)]).comparisons.getD
          t ("", 0) =
        (([("A", "ACGT".toList), ("B", "ACGA".toList), ("C", "TT".toList)].map
            fun nv => nv.1).getD (t + 1) "",
          globalScoreQ defaultAligner
            (([("A", "ACGT".toList), ("B", "ACGA".toList), ("C", "TT".toList)].map
              fun nv => nv.2).getD 0 [])
            (([("A", "ACGT".toList), ("B", "ACGA".toList), ("C", "TT".toList)].map
              fun nv => nv.2).getD (t + 1) []))) :=
  c6_fallback_structure
    [("A", "ACGT".toList), ("B", "ACGA".toList), ("C", "TT".toList)] (by decide)

/-! ## Matrix entry helpers -/

lemma triMatrix_entry (seqs : List (List Char)) {i j : ℕ}
    (hi : i < seqs.length) (hj : j ≤ i) :
    dAt (triMatrix seqs) i j =
      if i = j then 0 else pairDistance (seqs.getD i []) (seqs.getD j []) := by
  unfold dAt triMatrix
  rw [getD_map_range _ hi [], getD_map_range _ (Nat.lt_succ_of_le hj) 0]

lemma fullMatrix_entry (seqs : List (List Char)) {i j : ℕ}
    (hi : i < seqs.length) (hj : j < seqs.length) :
    dAt (fullMatrix seqs) i j = mirrorEntry (triMatrix seqs) i j := by
  unfold dAt fullMatrix
  rw [getD_map_range _ hi [], getD_map_range _ hj 0]

lemma mirrorEntry_symm (tri : List (List ℚ)) (i j : ℕ) :
    mirrorEntry tri i j = mirrorEntry tri j i := by
  unfold mirrorEntry
  rcases Nat.le_total i j with h | h
  · rcases Nat.eq_or_lt_of_le h with rfl | hlt
    · rfl
    · rw [if_neg (Nat.not_le.mpr hlt), if_pos h]
  · rcases Nat.eq_or_lt_of_le h with rfl | hlt
    · rfl
    · rw [if_pos h, if_neg (Nat.not_le.mpr hlt)]

lemma pairDistance_nonneg (s t : List Char) : 0 ≤ pairDistance s t :=
  le_max_left 0 _

lemma pairDistance_le_one (s t : List Char) : pairDistance s t ≤ 1 :=
  max_le zero_le_one (min_le_left 1 _)

/-- The per-pair distance of the source (with its `max_score > 0` guard)
coincides with the spec's clamped formula; when both sequences are empty the
guard returns 1 and the formula, whose division by zero denominator reads 0,
clamps to the same value. -/
lemma pairDistance_eq_clamp (s t : List Char) :
    pairDistance s t =
      max 0 (min 1 (1 - globalScoreQ defaultAligner s t /
        (((max s.length t.length : ℕ) : ℚ) * defaultAligner.matchScore))) := by
  show max 0 (min 1
      (if 0 < ((max s.length t.length : ℕ) : ℚ) * defaultAligner.matchScore then
        1 - globalScoreQ defaultAligner s t /
          (((max s.length t.length : ℕ) : ℚ) * defaultAligner.matchScore)
      else 1)) = _
  by_cases h : 0 < ((max s.length t.length : ℕ) : ℚ) * defaultAligner.matchScore
  · rw [if_pos h]
  · rw [if_neg h]
    have h0 : ((max s.length t.length : ℕ) : ℚ) * defaultAligner.matchScore = 0 :=
      le_antisymm (not_lt.mp h)
        (mul_nonneg (Nat.cast_nonneg _) (by norm_num [defaultAligner]))
    rw [h0, div_zero, sub_zero]

/-! ## C4: invariants of the produced distance matrix -/

lemma mirror_diag (seqs : List (List Char)) {i : ℕ} (hi : i < seqs.length) :
    mirrorEntry (triMatrix seqs) i i = 0 := by
  rw [mirrorEntry, if_pos le_rfl, triMatrix_entry seqs hi le_rfl, if_pos rfl]

lemma mirror_bounds (seqs : List (List Char)) {i j : ℕ}
    (hi : i < seqs.length) (hj : j < seqs.length) :
    0 ≤ mirrorEntry (triMatrix seqs) i j ∧ mirrorEntry (triMatrix seqs) i j ≤ 1 := by
  unfold mirrorEntry
  by_cases h : j ≤ i
  · rw [if_pos h, triMatrix_entry seqs hi h]
    by_cases hij : i = j
    · rw [if_pos hij]; exact ⟨le_rfl, zero_le_one⟩
    · rw [if_neg hij]; exact ⟨pairDistance_nonneg _ _, pairDistance_le_one _ _⟩
  · rw [if_neg h, triMatrix_entry seqs hj (Nat.le_of_lt (Nat.not_le.mp h))]
    by_cases hij : j = i
    · rw [if_pos hij]; exact ⟨le_rfl, zero_le_one⟩
    · rw [if_neg hij]; exact ⟨pairDistance_nonneg _ _, pairDistance_le_one _ _⟩

/-- C4: for every input mapping with at least two entries, the distance
matrix handed to the tree constructor is symmetric, has zero diagonal, and
every entry lies in [0,1]. -/
theorem c4_matrix_invariants (fasta : List (String × List Char))
    (h2 : 2 ≤ fasta.length) :
    (∀ i j, i < fasta.length → j < fasta.length →
      dAt (fullMatrix (fasta.map fun nv => nv.2)) i j =
        dAt (fullMatrix (fasta.map fun nv => nv.2)) j i) ∧
    (∀ i, i < fasta.length →
      dAt (fullMatrix (fasta.map fun nv => nv.2)) i i = 0) ∧
    (∀ i j, i < fasta.length → j < fasta.length →
      0 ≤ dAt (fullMatrix (fasta.map fun nv => nv.2)) i j ∧
      dAt (fullMatrix (fasta.map fun nv => nv.2)) i j ≤ 1) := by
  have hlen : (fasta.map fun nv => nv.2).length = fasta.length := List.length_map _ _
  refine ⟨?_, ?_, ?_⟩
  · intro i j hi hj
    rw [fullMatrix_entry _ (hlen ▸ hi) (hlen ▸ hj),
      fullMatrix_entry _ (hlen ▸ hj) (hlen ▸ hi), mirrorEntry_symm]
  · intro i hi
    rw [fullMatrix_entry _ (hlen ▸ hi) (hlen ▸ hi), mirror_diag _ (hlen ▸ hi)]
  · intro i j hi hj
    rw [fullMatrix_entry _ (hlen ▸ hi) (hlen ▸ hj)]
    exact mirror_bounds _ (hlen ▸ hi) (hlen ▸ hj)

/-- C4 witness: the invariants at a concrete two-sequence input. -/
theorem c4_witness :
    (∀ i j, i < 2 → j < 2 →
      dAt (fullMatrix ([("A", "AC".toList), ("B", "AG".toList)].map fun nv => nv.2)) i j =
        dAt (fullMatrix ([("A", "AC".toList), ("B", "AG".toList)].map fun nv => nv.2)) j i) ∧
    (∀ i, i < 2 →
      dAt (fullMatrix ([("A", "AC".toList), ("B", "AG".toList)].map fun nv => nv.2)) i i = 0) ∧
    (∀ i j, i < 2 → j < 2 →
      0 ≤ dAt (fullMatrix ([("A", "AC".toList), ("B", "AG".toList)].map fun nv => nv.2)) i j ∧
      dAt (fullMatrix ([("A", "AC".toList), ("B", "AG".toList)].map fun nv => nv.2)) i j ≤ 1) :=
  c4_matrix_invariants [("A", "AC".toList), ("B", "AG".toList)] (by decide)

/-! ## C5: the stored off-diagonal normalization formula -/

/-- C5: every stored off-diagonal distance equals
`1 - score / (max(len_i, len_j) * match_score)` clamped into [0,1], where
the score is the global, score-only alignment score of the pair (computed at
the lower-triangular position and mirrored into the opposite one). -/
theorem c5_offdiag_normalization (fasta : List (String × List Char))
    (i j : ℕ) (hj : j < i) (hi : i < fasta.length) :
    dAt (fullMatrix (fasta.map fun nv => nv.2)) i j =
      max 0 (min 1 (1 -
        globalScoreQ defaultAligner
            ((fasta.map fun nv => nv.2).getD i []) ((fasta.map fun nv => nv.2).getD j []) /
          (((max ((fasta.map fun nv => nv.2).getD i []).length
                ((fasta.map fun nv => nv.2).getD j []).length : ℕ) : ℚ) *
            defaultAligner.matchScore))) ∧
    dAt (fullMatrix (fasta.map fun nv => nv.2)) j i =
      dAt (fullMatrix (fasta.map fun nv => nv.2)) i j := by
  have hlen : (fasta.map fun nv => nv.2).length = fasta.length := List.length_map _ _
  have hi' : i < (fasta.map fun nv => nv.2).length := hlen ▸ hi
  have hj' : j < (fasta.map fun nv => nv.2).length := lt_trans hj hi'
  constructor
  · rw [fullMatrix_entry _ hi' hj', mirrorEntry, if_pos hj.le,
      triMatrix_entry _ hi' hj.le, if_neg (Nat.ne_of_gt hj), pairDistance_eq_clamp]
  · rw [fullMatrix_entry _ hi' hj', fullMatrix_entry _ hj' hi', mirrorEntry_symm]

/-- C5 witness: the normalization formula at a concrete pair. -/
theorem c5_witness :
    dAt (fullMatrix ([("A", "AC".toList), ("B", "AG".toList)].map fun nv => nv.2)) 1 0 =
      max 0 (min 1 (1 -
        globalScoreQ defaultAligner
            (([("A", "AC".toList), ("B", "AG".toList)].map fun nv => nv.2).getD 1 [])
            (([("A", "AC".toList), ("B", "AG".toList)].map fun nv => nv.2).getD 0 []) /
          (((max (([("A", "AC".toList), ("B", "AG".toList)].map fun nv => nv.2).getD 1 []).length
                (([("A", "AC".toList), ("B", "AG".toList)].map fun nv => nv.2).getD 0 []).length : ℕ) : ℚ) *
            defaultAligner.matchScore))) ∧
    dAt (fullMatrix ([("A", "AC".toList), ("B", "AG".toList)].map fun nv => nv.2)) 0 1 =
      dAt (fullMatrix ([("A", "AC".toList), ("B", "AG".toList)].map fun nv => nv.2)) 1 0 :=
  c5_offdiag_normalization [("A", "AC".toList), ("B", "AG".toList)] 1 0
    (by decide) (by decide)

/-! ## C2: rejection of negative or asymmetric matrices -/

lemma validEntries_iff (n : ℕ) (d : List (List ℚ)) :
    validEntries n d = true ↔
      ∀ k l, k < n → l < n → 0 ≤ dAt d k l ∧ dAt d k l = dAt d l k := by
  simp only [validEntries, List.all_eq_true, List.mem_range, Bool.and_eq_true,
    decide_eq_true_eq]
  constructor
  · intro h k l hk hl; exact h k hk l hl
  · intro h k hk l hl; exact h k l hk hl

lemma validShape_iff (n : ℕ) (d : List (List ℚ)) :
    validShape n d = true ↔ d.length = n ∧ ∀ row ∈ d, row.length = n := by
  simp [validShape, List.all_eq_true]

/-- C2: a distance matrix containing a negative entry or an asymmetric pair
of entries is rejected by the UPGMA engine with `InvalidDistanceError`
before any merge is performed; no tree is returned.  (Modelled from the
spec: the clustering engine is the Biopython dependency, reconstructed here
per spec 4.3.) -/
theorem c2_invalid_matrix_rejected (names : List String) (d : List (List ℚ))
    (hlen : d.length = names.length)
    (hrow : ∀ row ∈ d, row.length = names.length)
    (hbad : ∃ k l, k < names.length ∧ l < names.length ∧
      (dAt d k l < 0 ∨ dAt d k l ≠ dAt d l k)) :
    upgma names d = .error .invalidDistance := by
  obtain ⟨k, l, hk, hl, hb⟩ := hbad
  have hn0 : 0 < names.length := Nat.lt_of_le_of_lt (Nat.zero_le k) hk
  have hne : names.isEmpty = false := by
    cases names with
    | nil => simp at hn0
    | cons a t => rfl
  have hv : validEntries names.length d = false := by
    rcases Bool.eq_false_or_eq_true (validEntries names.length d) with h | h
    · exfalso
      obtain ⟨hnn, hsym⟩ := (validEntries_iff names.length d).mp h k l hk hl
      rcases hb with hb | hb
      · exact absurd hnn (not_le.mpr hb)
      · exact hb hsym
    · exact h
  unfold upgma
  rw [hne]
  simp [hv]

/-- C2 witness: a concrete symmetric matrix with a negative entry is
rejected. -/
theorem c2_witness :
    upgma ["A", "B"] [[0, -1], [-1, 0]] = .error .invalidDistance :=
  c2_invalid_matrix_rejected ["A", "B"] [[0, -1], [-1, 0]] (by decide) (by decide)
    ⟨0, 1, by decide, by decide, Or.inl (by decide)⟩

/-! ## WithBot arithmetic helpers for the dynamic program -/

lemma wb_add_le {v : WithBot ℚ} {c q r : ℚ} (hv : v ≤ (c : WithBot ℚ)) (hq : q ≤ r) :
    v + (q : WithBot ℚ) ≤ ((c + r : ℚ) : WithBot ℚ) := by
  induction v using WithBot.recBotCoe with
  | bot => rw [WithBot.bot_add]; exact bot_le
  | coe a =>
      have ha : a ≤ c := WithBot.coe_le_coe.mp hv
      rw [← WithBot.coe_add]
      exact WithBot.coe_le_coe.mpr (by linarith)

lemma wb_le_add {v : WithBot ℚ} {c q : ℚ} (hv : (c : WithBot ℚ) ≤ v) :
    ((c + q : ℚ) : WithBot ℚ) ≤ v + (q : WithBot ℚ) := by
  induction v using WithBot.recBotCoe with
  | bot => exact absurd hv (WithBot.not_coe_le_bot c)
  | coe a =>
      have ha : c ≤ a := WithBot.coe_le_coe.mp hv
      rw [← WithBot.coe_add]
      exact WithBot.coe_le_coe.mpr (by linarith)

lemma wb_add_le_add_right {v w : WithBot ℚ} (h : v ≤ w) (q : ℚ) :
    v + (q : WithBot ℚ) ≤ w + (q : WithBot ℚ) := by
  induction v using WithBot.recBotCoe with
  | bot => rw [WithBot.bot_add]; exact bot_le
  | coe a =>
      induction w using WithBot.recBotCoe with
      | bot => exact absurd h (WithBot.not_coe_le_bot a)
      | coe b =>
          rw [← WithBot.coe_add, ← WithBot.coe_add]
          exact WithBot.coe_le_coe.mpr (by
            have := WithBot.coe_le_coe.mp h; linarith)

/-! ## Equation lemmas for the dynamic program -/

lemma cells_zero (p : AlignConfig) (x y : List Char) : cells p x y 0 = row0 p := rfl

lemma cells_succ (p : AlignConfig) (x y : List Char) (i : ℕ) :
    cells p x y (i + 1) = rowStep p (x.getD i ' ') y (cells p x y i) := rfl

lemma rowStep_zero (p : AlignConfig) (a : Char) (y : List Char) (prev : ℕ → Cell) :
    rowStep p a y prev 0 =
      ⟨⊥, max ((prev 0).M + (p.openGapScore : WithBot ℚ))
              ((prev 0).X + (p.extendGapScore : WithBot ℚ)), ⊥⟩ := rfl

lemma rowStep_succ (p : AlignConfig) (a : Char) (y : List Char) (prev : ℕ → Cell) (j : ℕ) :
    rowStep p a y prev (j + 1) =
      ⟨max3 (prev j).M (prev j).X (prev j).Y + (subScore p a (y.getD j ' ') : WithBot ℚ),
       max ((prev (j + 1)).M + (p.openGapScore : WithBot ℚ))
           ((prev (j + 1)).X + (p.extendGapScore : WithBot ℚ)),
       max ((rowStep p a y prev j).M + (p.openGapScore : WithBot ℚ))
           ((rowStep p a y prev j).Y + (p.extendGapScore : WithBot ℚ))⟩ := rfl

/-! ## Self-alignment score (claim C9): the optimal global score of a
sequence against itself is its length, whenever matches score 1, mismatches
at most 1 and gaps are non-positive. -/

lemma subScore_le_one (p : AlignConfig) (hma : p.matchScore = 1)
    (hmi : p.mismatchScore ≤ 1) (a b : Char) : subScore p a b ≤ 1 := by
  unfold subScore
  split
  · exact hma.le
  · exact hmi

lemma row0_le (p : AlignConfig) (hop : p.openGapScore ≤ 0)
    (hex : p.extendGapScore ≤ 0) : ∀ j, CellLE (row0 p j) 0 := by
  intro j
  induction j with
  | zero => exact ⟨le_rfl, bot_le, bot_le⟩
  | succ j ih =>
      refine ⟨bot_le, bot_le, ?_⟩
      show max ((row0 p j).M + (p.openGapScore : WithBot ℚ))
        ((row0 p j).Y + (p.extendGapScore : WithBot ℚ)) ≤ ((0 : ℚ) : WithBot ℚ)
      have h1 := wb_add_le ih.1 hop
      have h2 := wb_add_le ih.2.2 hex
      rw [add_zero] at h1 h2
      exact max_le h1 h2

lemma cells_le (p : AlignConfig) (hma : p.matchScore = 1)
    (hmi : p.mismatchScore ≤ 1) (hop : p.openGapScore ≤ 0)
    (hex : p.extendGapScore ≤ 0) (x y : List Char) :
    ∀ i j, CellLE (cells p x y i j) ((min i j : ℕ) : ℚ) := by
  intro i
  induction i with
  | zero =>
      intro j
      rw [cells_zero]
      simpa using row0_le p hop hex j
  | succ i ih =>
      intro j
      rw [cells_succ]
      induction j with
      | zero =>
          rw [rowStep_zero]
          refine ⟨bot_le, ?_, bot_le⟩
          have h1 := wb_add_le (ih 0).1 hop
          have h2 := wb_add_le (ih 0).2.1 hex
          rw [add_zero] at h1 h2
          show max _ _ ≤ (((min (i + 1) 0 : ℕ) : ℚ) : WithBot ℚ)
          have hc : ((min (i + 1) 0 : ℕ) : ℚ) = ((min i 0 : ℕ) : ℚ) := by
            simp
          rw [hc]
          exact max_le h1 h2
      | succ j ihj =>
          rw [rowStep_succ]
          have hmono : ∀ a b : ℕ, a ≤ b →
              (((a : ℕ) : ℚ) : WithBot ℚ) ≤ (((b : ℕ) : ℚ) : WithBot ℚ) := by
            intro a b hab
            exact_mod_cast WithBot.coe_le_coe.mpr (by exact_mod_cast hab)
          refine ⟨?_, ?_, ?_⟩
          · show max3 _ _ _ + (subScore p (x.getD i ' ') (y.getD j ' ') : WithBot ℚ) ≤ _
            have hm3 : max3 (cells p x y i j).M (cells p x y i j).X (cells p x y i j).Y ≤
                (((min i j : ℕ) : ℚ) : WithBot ℚ) :=
              max_le (ih j).1 (max_le (ih j).2.1 (ih j).2.2)
            have := wb_add_le hm3 (subScore_le_one p hma hmi (x.getD i ' ') (y.getD j ' '))
            have hc : ((min i j : ℕ) : ℚ) + 1 = ((min (i + 1) (j + 1) : ℕ) : ℚ) := by
              rw [Nat.succ_min_succ]
              push_cast
              ring
            rwa [hc] at this
          · have h1 := wb_add_le (ih (j + 1)).1 hop
            have h2 := wb_add_le (ih (j + 1)).2.1 hex
            rw [add_zero] at h1 h2
            have hle : (min i (j + 1) : ℕ) ≤ min (i + 1) (j + 1) :=
              min_le_min (Nat.le_succ i) le_rfl
            exact max_le (le_trans h1 (hmono _ _ hle)) (le_trans h2 (hmono _ _ hle))
          · have h1 := wb_add_le ihj.1 hop
            have h2 := wb_add_le ihj.2.2 hex
            rw [add_zero] at h1 h2
            have hle : (min (i + 1) j : ℕ) ≤ min (i + 1) (j + 1) :=
              min_le_min le_rfl (Nat.le_succ j)
            exact max_le (le_trans h1 (hmono _ _ hle)) (le_trans h2 (hmono _ _ hle))

lemma cells_diag_ge (p : AlignConfig) (hma : p.matchScore = 1) (s : List Char) :
    ∀ i, (((i : ℕ) : ℚ) : WithBot ℚ) ≤ (cells p s s i i).M := by
  intro i
  induction i with
  | zero =>
      rw [cells_zero]
      show (((0 : ℕ) : ℚ) : WithBot ℚ) ≤ ((0 : ℚ) : WithBot ℚ)
      simp
  | succ i ih =>
      rw [cells_succ, rowStep_succ]
      have hsub : subScore p (s.getD i ' ') (s.getD i ' ') = 1 := by
        rw [subScore, if_pos rfl, hma]
      show _ ≤ max3 _ _ _ + (subScore p (s.getD i ' ') (s.getD i ' ') : WithBot ℚ)
      rw [hsub]
      have h1 : (((i : ℕ) : ℚ) : WithBot ℚ) ≤
          max3 (cells p s s i i).M (cells p s s i i).X (cells p s s i i).Y :=
        le_trans ih (le_max_left _ _)
      have h2 := wb_le_add (q := 1) h1
      have hc : ((i : ℚ) + 1) = (((i + 1 : ℕ) : ℚ)) := by push_cast; ring
      rwa [hc] at h2

lemma globalScore_self (p : AlignConfig) (hma : p.matchScore = 1)
    (hmi : p.mismatchScore ≤ 1) (hop : p.openGapScore ≤ 0)
    (hex : p.extendGapScore ≤ 0) (s : List Char) :
    globalScore p s s = (((s.length : ℕ) : ℚ) : WithBot ℚ) := by
  unfold globalScore
  apply le_antisymm
  · have h := cells_le p hma hmi hop hex s s s.length s.length
    have := max_le h.1 (max_le h.2.1 h.2.2)
    simpa [max3, Nat.min_self] using this
  · exact le_trans (cells_diag_ge p hma s s.length) (le_max_left _ _)

lemma globalScoreQ_self (p : AlignConfig) (hma : p.matchScore = 1)
    (hmi : p.mismatchScore ≤ 1) (hop : p.openGapScore ≤ 0)
    (hex : p.extendGapScore ≤ 0) (s : List Char) :
    globalScoreQ p s s = (s.length : ℚ) := by
  rw [globalScoreQ, globalScore_self p hma hmi hop hex s]
  rfl

/-! ## C9: self-alignment score and normalized self-distance -/

/-- C9 (amended): for every sequence s, aligning s globally against itself
through `perform_pairwise_alignment` with match score 1 and non-positive gap
scores yields score equal to the length of s; for every nonempty s the
normalized distance of the self-pair is 0 (for an empty sequence the
builder's zero-max-score guard yields distance 1 instead). -/
theorem c9_self_score_and_distance (s : List Char) (g : ℚ) (hg : g ≤ 0) :
    (perform_pairwise_alignment s s 1 (-1) g "global").score = (s.length : ℚ) ∧
    (s ≠ [] → pairDistance s s = 0) := by
  constructor
  · show (if (pairwiseAlignerConfig 1 (-1) g "global").mode = "local" then
        localScoreQ (pairwiseAlignerConfig 1 (-1) g "global") s s
      else globalScoreQ (pairwiseAlignerConfig 1 (-1) g "global") s s) = (s.length : ℚ)
    have hmode : (pairwiseAlignerConfig 1 (-1) g "global").mode = "global" := rfl
    rw [hmode]
    rw [if_neg (by decide : ¬ ("global" : String) = "local")]
    exact globalScoreQ_self _ rfl (by norm_num [pairwiseAlignerConfig]) hg
      (by show g / 2 ≤ 0; linarith) s
  · intro hs
    have hn : 0 < s.length := List.length_pos.mpr hs
    have hscore : globalScoreQ defaultAligner s s = (s.length : ℚ) :=
      globalScoreQ_self _ rfl (by norm_num [defaultAligner]) le_rfl le_rfl s
    show max 0 (min 1
        (if 0 < ((max s.length s.length : ℕ) : ℚ) * defaultAligner.matchScore then
          1 - globalScoreQ defaultAligner s s /
            (((max s.length s.length : ℕ) : ℚ) * defaultAligner.matchScore)
        else 1)) = 0
    have hmax : (max s.length s.length : ℕ) = s.length := Nat.max_self _
    have hms : defaultAligner.matchScore = 1 := rfl
    rw [hmax, hms, mul_one, hscore, if_pos (by exact_mod_cast hn)]
    rw [div_self (by exact_mod_cast hn.ne' : (s.length : ℚ) ≠ 0), sub_self]
    simp

/-- C9 witness: the amended statement at a concrete sequence with gap score
-1/2, giving score 4 and self-distance 0. -/
theorem c9_witness :
    (perform_pairwise_alignment "ACGT".toList "ACGT".toList 1 (-1) (-1/2) "global").score =
      (("ACGT".toList).length : ℚ) ∧
    ("ACGT".toList ≠ [] → pairDistance "ACGT".toList "ACGT".toList = 0) :=
  c9_self_score_and_distance "ACGT".toList (-1/2) (by norm_num)

/-- C9 counterexample: for the empty sequence the self-alignment score is 0,
its length, but the normalized distance produced by the builder is 1, not 0:
the claim fails as stated for every sequence. -/
theorem c9_counterexample :
    (perform_pairwise_alignment ([] : List Char) [] 1 (-1) (-1/2) "global").score = 0 ∧
    pairDistance ([] : List Char) [] = 1 ∧
    pairDistance ([] : List Char) [] ≠ 0 := by
  have h1 : pairDistance ([] : List Char) [] = 1 := by
    rw [pairDistance_eq_clamp]
    simp
  exact ⟨rfl, h1, by rw [h1]; norm_num⟩

/-! ## Support lemmas for the UPGMA engine -/

lemma getD_mem {α : Type} {l : List α} {k : ℕ} (hk : k < l.length) (d : α) :
    l.getD k d ∈ l := by
  rw [List.getD_eq_getElem?_getD, List.getElem?_eq_getElem hk]
  exact List.getElem_mem hk

lemma mem_othersList {n i j k : ℕ} :
    k ∈ othersList n i j ↔ k < n ∧ k ≠ i ∧ k ≠ j := by
  simp [othersList, List.mem_filter, List.mem_range, and_assoc]

lemma othersList_nodup (n i j : ℕ) : (othersList n i j).Nodup :=
  (List.nodup_range n).filter _

lemma othersList_getD_facts {n i j t : ℕ} (ht : t < (othersList n i j).length) :
    (othersList n i j).getD t 0 < n ∧
    (othersList n i j).getD t 0 ≠ i ∧ (othersList n i j).getD t 0 ≠ j :=
  mem_othersList.mp (getD_mem ht 0)

lemma othersList_getD_ne {n i j t s : ℕ}
    (ht : t < (othersList n i j).length) (hs : s < (othersList n i j).length)
    (hts : t ≠ s) :
    (othersList n i j).getD t 0 ≠ (othersList n i j).getD s 0 := by
  rw [List.getD_eq_getElem?_getD, List.getElem?_eq_getElem ht,
    List.getD_eq_getElem?_getD, List.getElem?_eq_getElem hs]
  intro h
  exact hts (((othersList_nodup n i j).getElem_inj_iff).mp h)

lemma sum_map_one {α : Type} : ∀ (l : List α), (l.map fun _ => 1).sum = l.length := by
  intro l
  induction l with
  | nil => rfl
  | cons x xs ih => simp [ih, Nat.add_comm]

lemma sum_map_getD_range {α : Type} (g : α → ℕ) (d : α) : ∀ (l : List α),
    (l.map g).sum = ((List.range l.length).map fun k => g (l.getD k d)).sum := by
  intro l
  induction l with
  | nil => rfl
  | cons x xs ih =>
      have hc : ((fun k => g ((x :: xs).getD k d)) ∘ Nat.succ) =
          fun k => g (xs.getD k d) := by
        funext k
        simp
      simp only [List.length_cons, List.range_succ_eq_map, List.map_cons,
        List.map_map, List.sum_cons, List.getD_cons_zero]
      rw [hc, ih]

lemma sum_filter_ne_one (f : ℕ → ℕ) : ∀ (n i : ℕ), i < n →
    ((((List.range n).filter fun k => k ≠ i).map f).sum + f i =
      ((List.range n).map f).sum) := by
  intro n
  induction n with
  | zero => intro i hi; exact absurd hi (Nat.not_lt_zero i)
  | succ n ih =>
      intro i hi
      rw [List.range_succ, List.filter_append, List.map_append, List.sum_append,
        List.map_append, List.sum_append]
      rcases Nat.lt_or_ge i n with hin | hin
      · have hkeep : List.filter (fun k => decide (k ≠ i)) [n] = [n] := by
          simp [Nat.ne_of_gt hin]
        rw [hkeep]
        have := ih i hin
        simp only [List.map_cons, List.map_nil, List.sum_cons, List.sum_nil]
        omega
      · have hieq : i = n := le_antisymm (Nat.lt_succ_iff.mp hi) hin
        subst hieq
        have hdrop : List.filter (fun k => decide (k ≠ i)) [i] = [] := by simp
        have hall : List.filter (fun k => decide (k ≠ i)) (List.range i) =
            List.range i := by
          rw [List.filter_eq_self]
          intro a ha
          simp [Nat.ne_of_lt (List.mem_range.mp ha)]
        rw [hdrop, hall]
        simp only [List.map_cons, List.map_nil, List.sum_cons, List.sum_nil]
        omega

lemma sum_filter_ne_two (f : ℕ → ℕ) : ∀ (n i j : ℕ), i < j → j < n →
    (((othersList n i j).map f).sum + f i + f j = ((List.range n).map f).sum) := by
  intro n
  induction n with
  | zero => intro i j hij hj; exact absurd hj (Nat.not_lt_zero j)
  | succ n ih =>
      intro i j hij hj
      unfold othersList
      rw [List.range_succ, List.filter_append, List.map_append, List.sum_append,
        List.map_append, List.sum_append]
      rcases Nat.lt_or_ge j n with hjn | hjn
      · have hkeep : List.filter (fun k => decide (k ≠ i) && decide (k ≠ j)) [n] =
            [n] := by
          simp [Nat.ne_of_gt (lt_trans hij hjn), Nat.ne_of_gt hjn]
        rw [hkeep]
        have := ih i j hij hjn
        unfold othersList at this
        simp only [List.map_cons, List.map_nil, List.sum_cons, List.sum_nil]
        omega
      · have hjeq : j = n := le_antisymm (Nat.lt_succ_iff.mp hj) hjn
        subst hjeq
        have hdrop : List.filter (fun k => decide (k ≠ i) && decide (k ≠ j)) [j] =
            [] := by simp
        have hcongr : List.filter (fun k => decide (k ≠ i) && decide (k ≠ j))
            (List.range j) = List.filter (fun k => decide (k ≠ i)) (List.range j) := by
          apply List.filter_congr
          intro a ha
          simp [Nat.ne_of_lt (List.mem_range.mp ha)]
        rw [hdrop, hcongr]
        have := sum_filter_ne_one f j i hij
        simp only [List.map_cons, List.map_nil, List.sum_cons, List.sum_nil]
        omega

lemma mem_offDiagPairs {n : ℕ} {q : ℕ × ℕ} :
    q ∈ offDiagPairs n ↔ q.1 < q.2 ∧ q.2 < n := by
  obtain ⟨a, b⟩ := q
  simp only [offDiagPairs, List.mem_flatMap, List.mem_map, List.mem_filter,
    List.mem_range, decide_eq_true_eq]
  constructor
  · rintro ⟨i, hi, j, ⟨⟨hj, hij⟩, heq⟩⟩
    cases heq
    exact ⟨hij, hj⟩
  · rintro ⟨hab, hbn⟩
    exact ⟨a, lt_trans hab hbn, b, ⟨⟨hbn, hab⟩, rfl⟩⟩

lemma minPairAux_mem (d : List (List ℚ)) :
    ∀ (ps : List (ℕ × ℕ)) (best : ℕ × ℕ), minPairAux d ps best ∈ best :: ps := by
  intro ps
  induction ps with
  | nil => intro best; rw [minPairAux]; exact List.mem_singleton.mpr rfl
  | cons p rest ih =>
      intro best
      rw [minPairAux]
      by_cases hc : dAt d p.1 p.2 < dAt d best.1 best.2
      · rw [if_pos hc]
        have := ih p
        simp only [List.mem_cons] at this ⊢
        tauto
      · rw [if_neg hc]
        have := ih best
        simp only [List.mem_cons] at this ⊢
        tauto

lemma minPairAux_le (d : List (List ℚ)) :
    ∀ (ps : List (ℕ × ℕ)) (best q : ℕ × ℕ), q ∈ best :: ps →
      dAt d (minPairAux d ps best).1 (minPairAux d ps best).2 ≤ dAt d q.1 q.2 := by
  intro ps
  induction ps with
  | nil =>
      intro best q hq
      rw [List.mem_singleton.mp hq, minPairAux]
  | cons p rest ih =>
      intro best q hq
      rw [minPairAux]
      have hlow : dAt d (if dAt d p.1 p.2 < dAt d best.1 best.2 then p else best).1
          (if dAt d p.1 p.2 < dAt d best.1 best.2 then p else best).2 ≤
          min (dAt d p.1 p.2) (dAt d best.1 best.2) := by
        by_cases hc : dAt d p.1 p.2 < dAt d best.1 best.2
        · rw [if_pos hc]; exact le_min le_rfl hc.le
        · rw [if_neg hc]; exact le_min (not_lt.mp hc) le_rfl
      have hhead : dAt d (minPairAux d rest
          (if dAt d p.1 p.2 < dAt d best.1 best.2 then p else best)).1
          (minPairAux d rest
          (if dAt d p.1 p.2 < dAt d best.1 best.2 then p else best)).2 ≤
          min (dAt d p.1 p.2) (dAt d best.1 best.2) :=
        le_trans (ih _ _ (List.mem_cons_self _ _)) hlow
      rcases List.mem_cons.mp hq with rfl | hq
      · exact le_trans hhead (min_le_right _ _)
      · rcases List.mem_cons.mp hq with rfl | hq
        · exact le_trans hhead (min_le_left _ _)
        · exact ih _ q (List.mem_cons_of_mem _ hq)

lemma findMinPair_spec (d : List (List ℚ)) {n : ℕ} (hn : 2 ≤ n) :
    (findMinPair d n).1 < (findMinPair d n).2 ∧ (findMinPair d n).2 < n ∧
    ∀ a b, a < b → b < n →
      dAt d (findMinPair d n).1 (findMinPair d n).2 ≤ dAt d a b := by
  have h01 : ((0, 1) : ℕ × ℕ) ∈ offDiagPairs n :=
    mem_offDiagPairs.mpr ⟨Nat.zero_lt_one, hn⟩
  cases hE : offDiagPairs n with
  | nil => rw [hE] at h01; cases h01
  | cons p ps =>
      have hfm : findMinPair d n = minPairAux d ps p := by
        rw [findMinPair, hE]
      have hm : minPairAux d ps p ∈ offDiagPairs n := by
        rw [hE]; exact minPairAux_mem d ps p
      have hv := mem_offDiagPairs.mp hm
      refine ⟨hfm ▸ hv.1, hfm ▸ hv.2, ?_⟩
      intro a b hab hbn
      have hq : ((a, b) : ℕ × ℕ) ∈ p :: ps := by
        rw [← hE]; exact mem_offDiagPairs.mpr ⟨hab, hbn⟩
      rw [hfm]
      exact minPairAux_le d ps p (a, b) hq

/-! ## Counting the merges (claim C7) -/

lemma leafCount_pos (c : Cluster) : 1 ≤ c.leafCount := by
  induction c with
  | leaf nm => exact le_rfl
  | node h l r ihl ihr => simp only [Cluster.leafCount]; omega

lemma mergeLoop_succ (fuel : ℕ) (pool : List Cluster) (d : List (List ℚ)) :
    mergeLoop (fuel + 1) pool d =
      if pool.length ≤ 1 then pool.headD (Cluster.leaf "")
      else mergeLoop fuel
        (mergeStep pool d (findMinPair d pool.length).1 (findMinPair d pool.length).2).1
        (mergeStep pool d (findMinPair d pool.length).1 (findMinPair d pool.length).2).2 := rfl

lemma mergeStep_fst (pool : List Cluster) (d : List (List ℚ)) (i j : ℕ) :
    (mergeStep pool d i j).1 =
      Cluster.node (dAt d i j / 2) (pool.getD i (Cluster.leaf ""))
          (pool.getD j (Cluster.leaf "")) ::
        (othersList pool.length i j).map fun k => pool.getD k (Cluster.leaf "") := rfl

lemma othersList_length {n i j : ℕ} (hij : i < j) (hjn : j < n) :
    (othersList n i j).length + 2 = n := by
  have h1 := sum_filter_ne_two (fun _ => 1) n i j hij hjn
  simp only [sum_map_one, List.length_range] at h1
  omega

lemma mergeStep_counts (pool : List Cluster) (d : List (List ℚ)) {i j : ℕ}
    (hij : i < j) (hjn : j < pool.length) :
    poolLeaves (mergeStep pool d i j).1 = poolLeaves pool ∧
    poolInternal (mergeStep pool d i j).1 = poolInternal pool + 1 ∧
    (mergeStep pool d i j).1.length = pool.length - 1 := by
  have hlenOthers := othersList_length hij hjn
  have hmapmapL : ((othersList pool.length i j).map
        fun k => pool.getD k (Cluster.leaf "")).map Cluster.leafCount =
      (othersList pool.length i j).map
        fun k => (pool.getD k (Cluster.leaf "")).leafCount := by
    rw [List.map_map]; rfl
  have hmapmapI : ((othersList pool.length i j).map
        fun k => pool.getD k (Cluster.leaf "")).map Cluster.internalCount =
      (othersList pool.length i j).map
        fun k => (pool.getD k (Cluster.leaf "")).internalCount := by
    rw [List.map_map]; rfl
  have hL := sum_filter_ne_two (fun k => (pool.getD k (Cluster.leaf "")).leafCount)
    pool.length i j hij hjn
  have hI := sum_filter_ne_two (fun k => (pool.getD k (Cluster.leaf "")).internalCount)
    pool.length i j hij hjn
  have hPL : poolLeaves pool =
      ((List.range pool.length).map
        fun k => (pool.getD k (Cluster.leaf "")).leafCount).sum :=
    sum_map_getD_range Cluster.leafCount (Cluster.leaf "") pool
  have hPI : poolInternal pool =
      ((List.range pool.length).map
        fun k => (pool.getD k (Cluster.leaf "")).internalCount).sum :=
    sum_map_getD_range Cluster.internalCount (Cluster.leaf "") pool
  refine ⟨?_, ?_, ?_⟩
  · rw [poolLeaves, mergeStep_fst, List.map_cons, List.sum_cons, hmapmapL]
    show (pool.getD i (Cluster.leaf "")).leafCount +
        (pool.getD j (Cluster.leaf "")).leafCount + _ = _
    rw [hPL]
    simp only [] at hL
    omega
  · rw [poolInternal, mergeStep_fst, List.map_cons, List.sum_cons, hmapmapI]
    show (pool.getD i (Cluster.leaf "")).internalCount +
        (pool.getD j (Cluster.leaf "")).internalCount + 1 + _ = _
    rw [hPI]
    simp only [] at hI
    omega
  · rw [mergeStep_fst, List.length_cons, List.length_map]
    omega

lemma mergeLoop_counts : ∀ (fuel : ℕ) (pool : List Cluster) (d : List (List ℚ)),
    1 ≤ pool.length → pool.length - 1 ≤ fuel →
    (mergeLoop fuel pool d).leafCount = poolLeaves pool ∧
    (mergeLoop fuel pool d).internalCount = poolInternal pool + (pool.length - 1) := by
  intro fuel
  induction fuel with
  | zero =>
      intro pool d h1 hf
      have hlen : pool.length = 1 := by omega
      obtain ⟨c, rfl⟩ := List.length_eq_one.mp hlen
      rw [mergeLoop]
      simp [poolLeaves, poolInternal]
  | succ fuel ih =>
      intro pool d h1 hf
      rw [mergeLoop_succ]
      by_cases hlen : pool.length ≤ 1
      · rw [if_pos hlen]
        have hl1 : pool.length = 1 := le_antisymm hlen h1
        obtain ⟨c, rfl⟩ := List.length_eq_one.mp hl1
        simp [poolLeaves, poolInternal]
      · rw [if_neg hlen]
        have hn2 : 2 ≤ pool.length := by omega
        obtain ⟨hij, hjn, hmin⟩ := findMinPair_spec d hn2
        obtain ⟨hcl, hci, hclen⟩ := mergeStep_counts pool d hij hjn
        have hih := ih (mergeStep pool d (findMinPair d pool.length).1
            (findMinPair d pool.length).2).1
          (mergeStep pool d (findMinPair d pool.length).1
            (findMinPair d pool.length).2).2
          (by omega) (by omega)
        rw [hih.1, hih.2, hcl, hci, hclen]
        omega

/-- C7: whenever UPGMA succeeds on N >= 2 named sequences, the resulting
tree has exactly N leaves and exactly N-1 internal merge nodes.  (Modelled
from the spec: the clustering engine is the Biopython dependency,
reconstructed per spec 4.3.) -/
theorem c7_tree_counts (names : List String) (d : List (List ℚ)) (root : Cluster)
    (h2 : 2 ≤ names.length) (hok : upgma names d = .ok root) :
    root.leafCount = names.length ∧ root.internalCount = names.length - 1 := by
  unfold upgma at hok
  split_ifs at hok with he hv
  have hroot : mergeLoop names.length (names.map Cluster.leaf) d = root :=
    Except.ok.inj hok
  have hpl : (names.map Cluster.leaf).length = names.length := List.length_map _ _
  have hcounts := mergeLoop_counts names.length (names.map Cluster.leaf) d
    (by omega) (by omega)
  have hleaves : poolLeaves (names.map Cluster.leaf) = names.length := by
    rw [poolLeaves, List.map_map]
    show (names.map fun _ => 1).sum = _
    rw [sum_map_one]
  have hinternal : poolInternal (names.map Cluster.leaf) = 0 := by
    rw [poolInternal, List.map_map]
    apply List.sum_eq_zero
    intro x hx
    obtain ⟨nm, hnm, rfl⟩ := List.mem_map.mp hx
    rfl
  rw [hroot, hpl, hleaves, hinternal] at hcounts
  omega

/-- C7 witness: the count property at a concrete two-sequence matrix, where
UPGMA performs one merge at height 1/2. -/
theorem c7_witness :
    (Cluster.node (1/2) (.leaf "A") (.leaf "B")).leafCount =
      (["A", "B"] : List String).length ∧
    (Cluster.node (1/2) (.leaf "A") (.leaf "B")).internalCount =
      (["A", "B"] : List String).length - 1 :=
  c7_tree_counts ["A", "B"] [[0, 1], [1, 0]]
    (Cluster.node (1/2) (.leaf "A") (.leaf "B")) (by decide) (by rfl)

/-! ## Ultrametric monotonicity (claim C8) -/

lemma mergeStep_snd (pool : List Cluster) (dm : List (List ℚ)) (i j : ℕ) :
    (mergeStep pool dm i j).2 =
      (0 :: (othersList pool.length i j).map (wavg pool dm i j)) ::
        (othersList pool.length i j).map
          fun k => wavg pool dm i j k ::
            (othersList pool.length i j).map fun l => dAt dm k l := rfl

lemma mergeStep_d00 (pool : List Cluster) (dm : List (List ℚ)) (i j : ℕ) :
    dAt (mergeStep pool dm i j).2 0 0 = 0 := rfl

lemma mergeStep_d0t (pool : List Cluster) (dm : List (List ℚ)) (i j : ℕ) {t : ℕ}
    (ht : t < (othersList pool.length i j).length) :
    dAt (mergeStep pool dm i j).2 0 (t + 1) =
      wavg pool dm i j ((othersList pool.length i j).getD t 0) := by
  unfold dAt
  rw [mergeStep_snd, List.getD_cons_zero, List.getD_cons_succ]
  exact getD_map_of_lt _ _ ht 0 0

lemma mergeStep_dt0 (pool : List Cluster) (dm : List (List ℚ)) (i j : ℕ) {t : ℕ}
    (ht : t < (othersList pool.length i j).length) :
    dAt (mergeStep pool dm i j).2 (t + 1) 0 =
      wavg pool dm i j ((othersList pool.length i j).getD t 0) := by
  unfold dAt
  rw [mergeStep_snd, List.getD_cons_succ,
    getD_map_of_lt _ _ ht [] 0, List.getD_cons_zero]

lemma mergeStep_dts (pool : List Cluster) (dm : List (List ℚ)) (i j : ℕ) {t s : ℕ}
    (ht : t < (othersList pool.length i j).length)
    (hs : s < (othersList pool.length i j).length) :
    dAt (mergeStep pool dm i j).2 (t + 1) (s + 1) =
      dAt dm ((othersList pool.length i j).getD t 0)
        ((othersList pool.length i j).getD s 0) := by
  unfold dAt
  rw [mergeStep_snd, List.getD_cons_succ,
    getD_map_of_lt _ _ ht [] 0, List.getD_cons_succ]
  exact getD_map_of_lt _ _ hs 0 0

lemma mergeStep_pool0 (pool : List Cluster) (dm : List (List ℚ)) (i j : ℕ) :
    (mergeStep pool dm i j).1.getD 0 (Cluster.leaf "") =
      Cluster.node (dAt dm i j / 2) (pool.getD i (Cluster.leaf ""))
        (pool.getD j (Cluster.leaf "")) := rfl

lemma mergeStep_poolt (pool : List Cluster) (dm : List (List ℚ)) (i j : ℕ) {t : ℕ}
    (ht : t < (othersList pool.length i j).length) :
    (mergeStep pool dm i j).1.getD (t + 1) (Cluster.leaf "") =
      pool.getD ((othersList pool.length i j).getD t 0) (Cluster.leaf "") := by
  rw [mergeStep_fst, List.getD_cons_succ]
  exact getD_map_of_lt _ _ ht _ 0

lemma mergeStep_len (pool : List Cluster) (dm : List (List ℚ)) (i j : ℕ) :
    (mergeStep pool dm i j).1.length = (othersList pool.length i j).length + 1 := by
  rw [mergeStep_fst, List.length_cons, List.length_map]

lemma wavg_ge (pool : List Cluster) (dm : List (List ℚ)) (i j k : ℕ) {m : ℚ}
    (hi : m ≤ dAt dm i k) (hj : m ≤ dAt dm j k) : m ≤ wavg pool dm i j k := by
  unfold wavg
  have hsi : (1 : ℚ) ≤ ((pool.getD i (Cluster.leaf "")).leafCount : ℚ) := by
    exact_mod_cast leafCount_pos _
  have hsj : (1 : ℚ) ≤ ((pool.getD j (Cluster.leaf "")).leafCount : ℚ) := by
    exact_mod_cast leafCount_pos _
  have hpos : 0 < ((pool.getD i (Cluster.leaf "")).leafCount : ℚ) +
      ((pool.getD j (Cluster.leaf "")).leafCount : ℚ) := by linarith
  rw [le_div_iff₀ hpos]
  nlinarith

lemma cluster_node_ultra {h : ℚ} {a b : Cluster} (hha : a.height ≤ h)
    (hhb : b.height ≤ h) (hua : a.isUltra = true) (hub : b.isUltra = true) :
    (Cluster.node h a b).isUltra = true := by
  rw [Cluster.isUltra]
  simp [hha, hhb, hua, hub]

lemma inv_mergeStep (pool : List Cluster) (dm : List (List ℚ)) {i j : ℕ}
    (hij : i < j) (hjn : j < pool.length)
    (hmin : ∀ a b, a < pool.length → b < pool.length → a ≠ b →
      dAt dm i j ≤ dAt dm a b)
    (hinv : UPGMAInv pool dm) :
    UPGMAInv (mergeStep pool dm i j).1 (mergeStep pool dm i j).2 := by
  have hin : i < pool.length := lt_trans hij hjn
  have hii : 2 * (pool.getD i (Cluster.leaf "")).height ≤ dAt dm i j :=
    hinv.sep i j hin hjn (Nat.ne_of_lt hij)
  have hjj : 2 * (pool.getD j (Cluster.leaf "")).height ≤ dAt dm i j := by
    have := hinv.sep j i hjn hin (Nat.ne_of_gt hij)
    rwa [hinv.symm j i hjn hin] at this
  constructor
  · intro k l hk hl
    rw [mergeStep_len] at hk hl
    match k, l with
    | 0, 0 => rfl
    | 0, t + 1 =>
        rw [mergeStep_d0t pool dm i j (by omega), mergeStep_dt0 pool dm i j (by omega)]
    | t + 1, 0 =>
        rw [mergeStep_d0t pool dm i j (by omega), mergeStep_dt0 pool dm i j (by omega)]
    | t + 1, s + 1 =>
        have ht : t < (othersList pool.length i j).length := by omega
        have hs : s < (othersList pool.length i j).length := by omega
        rw [mergeStep_dts pool dm i j ht hs, mergeStep_dts pool dm i j hs ht]
        exact hinv.symm _ _ (othersList_getD_facts ht).1 (othersList_getD_facts hs).1
  · intro k l hk hl
    rw [mergeStep_len] at hk hl
    match k, l with
    | 0, 0 => exact le_rfl
    | 0, t + 1 =>
        have ht : t < (othersList pool.length i j).length := by omega
        rw [mergeStep_d0t pool dm i j ht]
        exact wavg_ge pool dm i j _
          (hinv.nonneg i _ hin (othersList_getD_facts ht).1)
          (hinv.nonneg j _ hjn (othersList_getD_facts ht).1)
    | t + 1, 0 =>
        have ht : t < (othersList pool.length i j).length := by omega
        rw [mergeStep_dt0 pool dm i j ht]
        exact wavg_ge pool dm i j _
          (hinv.nonneg i _ hin (othersList_getD_facts ht).1)
          (hinv.nonneg j _ hjn (othersList_getD_facts ht).1)
    | t + 1, s + 1 =>
        have ht : t < (othersList pool.length i j).length := by omega
        have hs : s < (othersList pool.length i j).length := by omega
        rw [mergeStep_dts pool dm i j ht hs]
        exact hinv.nonneg _ _ (othersList_getD_facts ht).1 (othersList_getD_facts hs).1
  · intro k l hk hl hkl
    rw [mergeStep_len] at hk hl
    match k, l with
    | 0, 0 => exact absurd rfl hkl
    | 0, t + 1 =>
        have ht : t < (othersList pool.length i j).length := by omega
        obtain ⟨hkt, hkti, hktj⟩ := othersList_getD_facts ht
        rw [mergeStep_d0t pool dm i j ht, mergeStep_pool0]
        have hH : (Cluster.node (dAt dm i j / 2) (pool.getD i (Cluster.leaf ""))
            (pool.getD j (Cluster.leaf ""))).height = dAt dm i j / 2 := rfl
        rw [hH]
        have h2 : 2 * (dAt dm i j / 2) = dAt dm i j := by ring
        rw [h2]
        exact wavg_ge pool dm i j _
          (hmin i _ hin hkt fun he => hkti he.symm)
          (hmin j _ hjn hkt fun he => hktj he.symm)
    | t + 1, 0 =>
        have ht : t < (othersList pool.length i j).length := by omega
        obtain ⟨hkt, hkti, hktj⟩ := othersList_getD_facts ht
        rw [mergeStep_dt0 pool dm i j ht, mergeStep_poolt pool dm i j ht]
        apply wavg_ge pool dm i j
        · have := hinv.sep _ i hkt hin hkti
          rwa [hinv.symm _ i hkt hin] at this
        · have := hinv.sep _ j hkt hjn hktj
          rwa [hinv.symm _ j hkt hjn] at this
    | t + 1, s + 1 =>
        have ht : t < (othersList pool.length i j).length := by omega
        have hs : s < (othersList pool.length i j).length := by omega
        have hts : t ≠ s := by omega
        rw [mergeStep_dts pool dm i j ht hs, mergeStep_poolt pool dm i j ht]
        exact hinv.sep _ _ (othersList_getD_facts ht).1 (othersList_getD_facts hs).1
          (othersList_getD_ne ht hs hts)
  · intro c hc
    rw [mergeStep_fst] at hc
    rcases List.mem_cons.mp hc with rfl | hc
    · apply cluster_node_ultra
      · show (pool.getD i (Cluster.leaf "")).height ≤ dAt dm i j / 2
        linarith
      · show (pool.getD j (Cluster.leaf "")).height ≤ dAt dm i j / 2
        linarith
      · exact hinv.ultra _ (getD_mem hin _)
      · exact hinv.ultra _ (getD_mem hjn _)
    · obtain ⟨k, hk, rfl⟩ := List.mem_map.mp hc
      obtain ⟨hkn, -, -⟩ := mem_othersList.mp hk
      exact hinv.ultra _ (getD_mem hkn _)

lemma mergeLoop_ultra : ∀ (fuel : ℕ) (pool : List Cluster) (dm : List (List ℚ)),
    UPGMAInv pool dm → (mergeLoop fuel pool dm).isUltra = true := by
  intro fuel
  induction fuel with
  | zero =>
      intro pool dm hinv
      rw [mergeLoop]
      cases pool with
      | nil => rfl
      | cons c cs => exact hinv.ultra c (List.mem_cons_self c cs)
  | succ fuel ih =>
      intro pool dm hinv
      rw [mergeLoop_succ]
      by_cases hlen : pool.length ≤ 1
      · rw [if_pos hlen]
        cases pool with
        | nil => rfl
        | cons c cs => exact hinv.ultra c (List.mem_cons_self c cs)
      · rw [if_neg hlen]
        have hn2 : 2 ≤ pool.length := by omega
        obtain ⟨hij, hjn, hmin⟩ := findMinPair_spec dm hn2
        apply ih
        apply inv_mergeStep pool dm hij hjn ?_ hinv
        intro a b ha hb hab
        rcases Nat.lt_or_ge a b with h | h
        · exact hmin a b h hb
        · have hba : b < a := lt_of_le_of_ne h (Ne.symm hab)
          rw [hinv.symm a b ha hb]
          exact hmin b a hba ha

/-- C8: for every non-negative, symmetric square input distance matrix over
a nonempty name list, UPGMA succeeds and produces a tree in which every
internal node's height is at least the height of each of its children
(ultrametric monotonicity).  (Modelled from the spec: the clustering engine
is the Biopython dependency, reconstructed per spec 4.3.) -/
theorem c8_ultrametric (names : List String) (d : List (List ℚ))
    (hne : names ≠ [])
    (hlen : d.length = names.length)
    (hrow : ∀ row ∈ d, row.length = names.length)
    (hsym : ∀ k l, k < names.length → l < names.length → dAt d k l = dAt d l k)
    (hnn : ∀ k l, k < names.length → l < names.length → 0 ≤ dAt d k l) :
    ∃ root, upgma names d = .ok root ∧ root.isUltra = true := by
  have hshape : validShape names.length d = true := (validShape_iff _ _).mpr ⟨hlen, hrow⟩
  have hent : validEntries names.length d = true :=
    (validEntries_iff _ _).mpr fun k l hk hl => ⟨hnn k l hk hl, hsym k l hk hl⟩
  have hie : names.isEmpty = false := by
    cases names with
    | nil => exact absurd rfl hne
    | cons a t => rfl
  have hpl : (names.map Cluster.leaf).length = names.length := List.length_map _ _
  have hleafheight : ∀ k, k < (names.map Cluster.leaf).length →
      ((names.map Cluster.leaf).getD k (Cluster.leaf "")).height = 0 := by
    intro k hk
    obtain ⟨nm, hnm, heq⟩ := List.mem_map.mp (getD_mem hk (Cluster.leaf ""))
    rw [← heq]
    rfl
  refine ⟨mergeLoop names.length (names.map Cluster.leaf) d, ?_, ?_⟩
  · unfold upgma
    rw [hie]
    simp [hshape, hent]
  · apply mergeLoop_ultra
    constructor
    · intro k l hk hl
      exact hsym k l (hpl ▸ hk) (hpl ▸ hl)
    · intro k l hk hl
      exact hnn k l (hpl ▸ hk) (hpl ▸ hl)
    · intro k l hk hl hkl
      rw [hleafheight k hk]
      have := hnn k l (hpl ▸ hk) (hpl ▸ hl)
      linarith
    · intro c hc
      obtain ⟨nm, hnm, rfl⟩ := List.mem_map.mp hc
      rfl

/-- C8 witness: ultrametric tree on a concrete 3x3 non-negative symmetric
matrix. -/
theorem c8_witness :
    ∃ root, upgma ["A", "B", "C"]
        [[0, 1, 4], [1, 0, 2], [4, 2, 0]] = .ok root ∧ root.isUltra = true :=
  c8_ultrametric ["A", "B", "C"] [[0, 1, 4], [1, 0, 2], [4, 2, 0]]
    (by decide) (by decide)
    (by intro row hr; fin_cases hr <;> rfl)
    (by
      intro k l hk hl
      have hk3 : k < 3 := by simpa using hk
      have hl3 : l < 3 := by simpa using hl
      interval_cases k <;> interval_cases l <;> rfl)
    (by
      intro k l hk hl
      have hk3 : k < 3 := by simpa using hk
      have hl3 : l < 3 := by simpa using hl
      interval_cases k <;> interval_cases l <;> norm_num [dAt])

end HGV
